import Mathlib

/-!
# Verification of the STREAM memory-bandwidth benchmark (stream.c)

This file is a shallow embedding, in Lean 4, of the parts of `src/stream.c`
that the specification's claims are about:

* the command-line parsing in `main` (lines 127-137), with `strtoul` modelled
  per C11 7.22.1.4;
* the per-thread array-size computation (line 182), including the
  double-precision rounding it performs;
* the allocation region (lines 184-190), driven by an allocator oracle;
* array initialization (lines 220-229), the rough-timing calibration pass that
  doubles `a` (lines 234-239), and the four kernels Copy, Scale, Add, Triad
  (lines 257-294);
* the min/avg/max reduction over the timing table (lines 296-316) and the
  bandwidth report values (lines 318-332);
* `checktick` (lines 340-369), with `mysecond` modelled as an oracle
  `ℕ → ℚ` returning one sample per call.

Modelling conventions.  C `double` values are represented by exact rationals.
Every double operation whose result a claim mentions concretely (kernel values
1, 2, 3, 6, 8, 30; byte counts; microsecond conversions of exact rationals)
is exact in IEEE-754 binary64, so this loses nothing for those claims.  The
one place where double rounding is itself the subject of a claim is the
array-size computation `(int)((double)stream_array_size / (double)nthreads)`;
there the conversion and the division are modelled with an explicit
round-to-nearest, ties-to-even rounding function at precision 53.

A caveat governs every buffer loop (initialization, calibration and the four
kernels).  The loop index `i` is declared at function scope (line 124) and a
plain `#pragma omp parallel` region does not privatize it, so in the source
all threads share one induction variable: for `nthreads ≥ 2` every one of
these loops is a data race (iterations can be lost or repeated, the index
can be read out of range) and the buffer contents are undefined behavior.
The `StreamState` functions below therefore model the *race-free per-thread
semantics* - what the loop body says, with each thread covering its own full
index range - which coincides with the source exactly when at most one
thread runs.  Claims about buffer contents are settled against that scope:
the race itself is recorded as a code bug, and end-to-end multi-thread value
claims are not statable over this embedding.
-/

namespace StreamBench

/-! ## Round-to-nearest model of IEEE-754 binary64

`rndAt u x` rounds `x` to the nearest integer multiple of `u > 0`, breaking
ties towards the even multiple.  `roundDbl x` rounds a positive rational in
the normal range to 53 bits of precision: the representable doubles around
`x` are the multiples of `2 ^ (Int.log 2 x - 52)`.  (Overflow and subnormals
are irrelevant here: every rounded quantity lies between 1 and 2^64.) -/

/-- Round `x` to the nearest multiple of `u`, ties to the even multiple. -/
def rndAt (u x : ℚ) : ℚ :=
  if x / u - ⌊x / u⌋ < 1 / 2 then ⌊x / u⌋ * u
  else if 1 / 2 < x / u - ⌊x / u⌋ then (⌊x / u⌋ + 1) * u
  else if ⌊x / u⌋ % 2 = 0 then ⌊x / u⌋ * u
  else (⌊x / u⌋ + 1) * u

/-- Rounding a nonnegative real to the nearest IEEE-754 binary64 value
(round-to-nearest, ties-to-even), in the normal range. -/
def roundDbl (x : ℚ) : ℚ :=
  if x ≤ 0 then 0 else rndAt (2 ^ (Int.log 2 x - 52)) x

/-- Line 182: `int array_size = (int)((double) stream_array_size / (double) nthreads);`
Both operands are converted to `double`, divided as doubles (one correctly
rounded operation), and the result is truncated by the `(int)` cast.  The
quotient is nonnegative, so truncation towards zero is the floor; the cast is
modelled as mathematical truncation, which matches C whenever the quotient is
representable in `int`. -/
def computedArraySize (stream_array_size nthreads : ℕ) : ℤ :=
  ⌊roundDbl (roundDbl stream_array_size / roundDbl nthreads)⌋

/-- The array size used for the buffers, as a natural number (the quotient is
nonnegative, so `Int.toNat` is the identity on it). -/
def arraySizeNat (te nt : ℕ) : ℕ := (computedArraySize te nt).toNat

/-- Lines 187-189: every thread issues three `malloc(sizeof(STREAM_TYPE) *
array_size)` calls, one per buffer `a`, `b`, `c`; all three requests use the
same `array_size` element count. -/
def allocSizes (te nt : ℕ) : ℕ × ℕ × ℕ :=
  (arraySizeNat te nt, arraySizeNat te nt, arraySizeNat te nt)

/-! ## Buffer state and the four kernels

`StreamState` holds the contents of the per-thread buffers `a`, `b`, `c`
(line 183: `STREAM_TYPE *a[nthreads], *b[nthreads], *c[nthreads]`), as total
maps thread-id → index → value.  Each buffer-loop region is modelled by the
pointwise function its body describes: positions with
`tid < nthreads ∧ i < array_size` get the new value, all other positions are
untouched.  In every kernel the written buffer is distinct from the buffers
read, so an in-place loop and this functional update agree element by
element.

These definitions are the race-free per-thread semantics (see the header
note): because the source shares the loop index `i` of line 124 across all
threads of each plain `#pragma omp parallel` region, they are faithful to
the source exactly when at most one thread runs (`nthreads ≤ 1`); for
`nthreads ≥ 2` the source loops race on `i` and have no defined result.
Theorems below about buffer contents are accordingly stated for the
single-thread case only. -/

/-- Line 110: `#define SCALAR 3.0`. -/
def SCALAR : ℚ := 3

structure StreamState where
  a : ℕ → ℕ → ℚ
  b : ℕ → ℕ → ℚ
  c : ℕ → ℕ → ℚ

/-- Lines 220-229, race-free semantics of the initialization loop:
`a[tid][i] = 1.0; b[tid][i] = 2.0; c[tid][i] = 0.0` (the source loop shares
the index `i` of line 124 across threads, so this matches the source only
for `nthreads ≤ 1`). -/
def initArrays (nt as : ℕ) (s : StreamState) : StreamState :=
  { a := fun t i => if t < nt ∧ i < as then 1 else s.a t i
    b := fun t i => if t < nt ∧ i < as then 2 else s.b t i
    c := fun t i => if t < nt ∧ i < as then 0 else s.c t i }

/-- Lines 234-239, race-free semantics of the rough-timing calibration pass
executed between initialization and the timed loop:
`a[tid][i] = 2.0E0 * a[tid][i]` (shared-index caveat as for `initArrays`). -/
def calibrationPass (nt as : ℕ) (s : StreamState) : StreamState :=
  { s with a := fun t i => if t < nt ∧ i < as then 2 * s.a t i else s.a t i }

/-- Lines 260-265, race-free semantics of Copy: `c[tid][i] = a[tid][i]`
(shared-index caveat as for `initArrays`). -/
def copyKernel (nt as : ℕ) (s : StreamState) : StreamState :=
  { s with c := fun t i => if t < nt ∧ i < as then s.a t i else s.c t i }

/-- Lines 269-274, race-free semantics of Scale:
`b[tid][i] = SCALAR * c[tid][i]` (shared-index caveat as for `initArrays`). -/
def scaleKernel (nt as : ℕ) (s : StreamState) : StreamState :=
  { s with b := fun t i => if t < nt ∧ i < as then SCALAR * s.c t i else s.b t i }

/-- Lines 278-283, race-free semantics of Add:
`c[tid][i] = a[tid][i] + b[tid][i]` (shared-index caveat as for
`initArrays`). -/
def addKernel (nt as : ℕ) (s : StreamState) : StreamState :=
  { s with c := fun t i => if t < nt ∧ i < as then s.a t i + s.b t i else s.c t i }

/-- Lines 287-292, race-free semantics of Triad:
`a[tid][i] = b[tid][i] + SCALAR * c[tid][i]` (shared-index caveat as for
`initArrays`). -/
def triadKernel (nt as : ℕ) (s : StreamState) : StreamState :=
  { s with a := fun t i => if t < nt ∧ i < as then s.b t i + SCALAR * s.c t i else s.a t i }

/-- One iteration of the timed loop (lines 257-294) under the race-free
semantics: Copy, Scale, Add, Triad in that order. -/
def kernelPass (nt as : ℕ) (s : StreamState) : StreamState :=
  triadKernel nt as (addKernel nt as (scaleKernel nt as (copyKernel nt as s)))

/-- The buffer state at the end of the first timed iteration under the
race-free semantics, following the code path from the initialization
(lines 220-229) through the calibration pass (lines 234-239) into iteration
`k = 0` of the timed loop.  `g` is the (arbitrary) content of the freshly
malloc-ed buffers.  Faithful to the source only for `nt ≤ 1` (shared-index
caveat). -/
def firstIterState (te nt : ℕ) (g : StreamState) : StreamState :=
  kernelPass nt (arraySizeNat te nt)
    (calibrationPass nt (arraySizeNat te nt)
      (initArrays nt (arraySizeNat te nt) g))

/-! ## Timing reduction (lines 296-316) and the report (lines 318-332) -/

/-- Line 65: `#define NTIMES 10`. -/
def NTIMES : ℕ := 10

/-- The reduction loop of lines 299-314 for one kernel: the accumulator is
seeded with `times[1]` (lines 301-303) and folded with `g` over
`k = 2, ..., ntimes-1` (lines 305-314). -/
def reduceLoop (g : ℚ → ℚ → ℚ) (times : ℕ → ℚ) (ntimes : ℕ) : ℚ :=
  (List.range' 2 (ntimes - 2)).foldl (fun acc k => g acc (times k)) (times 1)

/-- Lines 301, 309, 316: the summed times divided by `NTIMES-1`. -/
def avgtime (times : ℕ → ℚ) (ntimes : ℕ) : ℚ :=
  reduceLoop (fun x y => x + y) times ntimes / ((ntimes - 1 : ℕ) : ℚ)

/-- Lines 302, 310: running minimum, seeded with `times[1]`. -/
def mintime (times : ℕ → ℚ) (ntimes : ℕ) : ℚ := reduceLoop min times ntimes

/-- Lines 303, 311: running maximum, seeded with `times[1]`. -/
def maxtime (times : ℕ → ℚ) (ntimes : ℕ) : ℚ := reduceLoop max times ntimes

/-- Line 145: `BytesPerWord = sizeof(STREAM_TYPE)` with the default
`STREAM_TYPE double`, i.e. 8 bytes. -/
def BytesPerWord : ℕ := 8

/-- Lines 318-322: bytes moved per kernel,
`bytes[k] = {2,2,3,3} * sizeof(STREAM_TYPE) * array_size * nthreads`. -/
def bytes (array_size nthreads : ℕ) (k : Fin 4) : ℚ :=
  match k.val with
  | 0 => 2 * BytesPerWord * array_size * nthreads
  | 1 => 2 * BytesPerWord * array_size * nthreads
  | 2 => 3 * BytesPerWord * array_size * nthreads
  | _ => 3 * BytesPerWord * array_size * nthreads

/-- Line 329: the bandwidth figure printed for kernel `k`, in MiB/s:
`(bytes[k] / 1024. / 1024.) / mintime[k]`. -/
def reportedBandwidth (array_size nthreads : ℕ) (times : Fin 4 → ℕ → ℚ)
    (ntimes : ℕ) (k : Fin 4) : ℚ :=
  bytes array_size nthreads k / 1024 / 1024 / mintime (times k) ntimes

/-! ## Command line, allocation and the control flow of `main`

`CInput` abstracts the `argv[1]` string by the part `strtoul(argv[1], _, 10)`
looks at: either no leading digit sequence at all, or a digit sequence of
some value, optionally preceded by a minus sign.  `strtoulModel` follows
C11 7.22.1.4: the digit magnitude saturates at `ULONG_MAX` on overflow, and
a leading minus negates the magnitude in the `unsigned long` return type
(i.e. modulo 2^64 on the target platform). -/

inductive CInput where
  | noDigits : CInput
  | digits (n : ℕ) : CInput
  | negDigits (n : ℕ) : CInput

def ULONG_MAX : ℕ := 2 ^ 64 - 1

/-- Model of `strtoul(arg, _, 10)` (line 131). -/
def strtoulModel : CInput → ℕ
  | CInput.noDigits => 0
  | CInput.digits n => min n ULONG_MAX
  | CInput.negDigits n => (2 ^ 64 - min n ULONG_MAX) % 2 ^ 64

/-- Line 47: default `STREAM_ARRAY_SIZE` (the compiled-in default here is
20000000). -/
def STREAM_ARRAY_SIZE : ℕ := 20000000

/-- The result of one thread's three `malloc` calls (lines 187-189): `none`
models a `NULL` return. When allocation succeeds the oracle also supplies the
arbitrary initial (garbage) contents of the buffer. -/
structure AllocTriple where
  a : Option (ℕ → ℚ)
  b : Option (ℕ → ℚ)
  c : Option (ℕ → ℚ)

/-- `true` iff every thread's three allocations succeeded. -/
def allocsOk (nt : ℕ) (alloc : ℕ → AllocTriple) : Bool :=
  (List.range nt).all fun t =>
    (alloc t).a.isSome && (alloc t).b.isSome && (alloc t).c.isSome

/-- The buffer contents right after the allocation region, reading the
garbage contents out of the successful allocations. -/
def stateOfTable (alloc : ℕ → AllocTriple) : StreamState :=
  { a := fun t => ((alloc t).a).getD fun _ => 0
    b := fun t => ((alloc t).b).getD fun _ => 0
    c := fun t => ((alloc t).c).getD fun _ => 0 }

/-- Observable outcome of `main`.  `invalidInput e` is the early `return -1`
of line 135.  `ran as table postInit e` means control fell through the
allocation region (lines 184-190) and the rest of `main` executed, returning
`e` (line 337): `table` records the stored `a[tid]`, `b[tid]`, `c[tid]`
pointers, and `postInit` is the buffer state after the initialization loop
(lines 220-229, race-free `initArrays` semantics) - `none` when some
allocation failed, in which case the initialization loop writes through a
`NULL` pointer and the C program has no defined state. -/
inductive MainOutcome where
  | invalidInput (exitCode : ℤ)
  | ran (arraySize : ℤ) (table : ℕ → AllocTriple) (postInit : Option StreamState)
      (exitCode : ℤ)

def MainOutcome.exitCode : MainOutcome → ℤ
  | MainOutcome.invalidInput e => e
  | MainOutcome.ran _ _ _ e => e

def MainOutcome.isInvalidInput : MainOutcome → Bool
  | MainOutcome.invalidInput _ => true
  | MainOutcome.ran _ _ _ _ => false

/-- Everything `main` does after the `stream_array_size` value is fixed:
compute `array_size` (line 182), run the unchecked allocation region
(lines 184-190), and continue unconditionally into initialization and the
timed loop, finally returning 0 (line 337).  There is no branch on the
allocation results anywhere in the source. -/
def mainBody (te nt : ℕ) (alloc : ℕ → AllocTriple) : MainOutcome :=
  MainOutcome.ran (computedArraySize te nt) alloc
    (if allocsOk nt alloc then
      some (initArrays nt (arraySizeNat te nt) (stateOfTable alloc))
    else none)
    0

/-- Lines 127-137 of `main`: `argc == 1 || argc > 2` uses the compiled-in
default; otherwise `argv[1]` is parsed with `strtoul` and a value `< 1` hits
`printf("[ERROR] ..."); return -1;`. -/
def mainRun (argc : ℕ) (arg : CInput) (nt : ℕ) (alloc : ℕ → AllocTriple) :
    MainOutcome :=
  if argc = 1 ∨ 2 < argc then mainBody STREAM_ARRAY_SIZE nt alloc
  else if strtoulModel arg < 1 then MainOutcome.invalidInput (-1)
  else mainBody (strtoulModel arg) nt alloc

/-- An allocator on which every `malloc` returns `NULL`. -/
def failAlloc : ℕ → AllocTriple := fun _ => ⟨none, none, none⟩

/-- An allocator on which every `malloc` succeeds (with zeroed garbage). -/
def okAlloc : ℕ → AllocTriple :=
  fun _ => ⟨some fun _ => 0, some fun _ => 0, some fun _ => 0⟩

/-- A concrete (zeroed) garbage buffer state, used to instantiate theorems at
explicit inputs. -/
def zeroState : StreamState :=
  ⟨fun _ _ => 0, fun _ _ => 0, fun _ _ => 0⟩

/-! ## checktick (lines 340-369)

`mysecond` (lines 371-376) is modelled as an oracle `clk : ℕ → ℚ` giving the
value of the `n`-th call.  The inner `while` loops are given explicit fuel;
`findTick clk t1 fuel j` scans samples `j, j+1, ...` for the first one at
least `1.0E-6` seconds after `t1`, giving up after `fuel` samples. -/

def findTick (clk : ℕ → ℚ) (t1 : ℚ) : ℕ → ℕ → Option ℕ
  | 0, _ => none
  | fuel + 1, j =>
    if clk j - t1 < 1 / 1000000 then findTick clk t1 fuel (j + 1) else some j

/-- Lines 348-353: collect `count` tick timestamps starting with the sample
at position `p` as the fresh `t1` of the first iteration.  Each iteration
records the accepted `t2` and the next iteration's `t1` is the next sample. -/
def collectTicks (clk : ℕ → ℚ) (fuel : ℕ) : ℕ → ℕ → Option (List ℚ)
  | _, 0 => some []
  | p, count + 1 =>
    (findTick clk (clk p) fuel (p + 1)).bind fun j =>
      (collectTicks clk fuel (j + 1) count).map fun ts => clk j :: ts

/-- A C `(int)` cast of a `double`: truncation towards zero. -/
def cIntCast (q : ℚ) : ℤ := if 0 ≤ q then ⌊q⌋ else ⌈q⌉

/-- Line 364: `Delta = (int)(1.0E6 * (timesfound[i]-timesfound[i-1]))` for
each adjacent pair of collected timestamps. -/
def deltas : List ℚ → List ℤ
  | t0 :: t1 :: rest => cIntCast (1000000 * (t1 - t0)) :: deltas (t1 :: rest)
  | _ => []

/-- Lines 361-366: `minDelta = 1000000;` then
`minDelta = MIN(minDelta, MAX(Delta,0))` over the successive differences. -/
def checktickResult (ts : List ℚ) : ℤ :=
  (deltas ts).foldl (fun m d => min m (max d 0)) 1000000

/-- Line 340: `#define M 20`; `checktick` collects 20 tick timestamps and
reduces them.  `none` means a `while` loop ran out of fuel (i.e. the sampled
clock never advanced by a microsecond within `fuel` samples). -/
def checktickRun (clk : ℕ → ℚ) (fuel : ℕ) : Option ℤ :=
  (collectTicks clk fuel 0 20).map checktickResult

/-- A concrete clock oracle that advances by 2 seconds on every call, used
to evaluate `checktick` at an explicit input. -/
def ceClk : ℕ → ℚ := fun n => 2 * n

/-- The tick timestamps `checktick` collects from `ceClk`, starting at
sample `p`: every other sample, beginning with `p + 1`. -/
def ceList : ℕ → ℕ → List ℚ
  | _, 0 => []
  | p, count + 1 => ceClk (p + 1) :: ceList (p + 2) count

/-- The 20 tick timestamps collected from `ceClk`, written out. -/
def ceTicks : List ℚ :=
  [2, 6, 10, 14, 18, 22, 26, 30, 34, 38, 42, 46, 50, 54, 58, 62, 66, 70, 74, 78]

/-- Specification-side description of the sampling process of lines 348-353:
`TicksFrom clk p ts` says that `ts` is the list of tick timestamps obtained
starting with fresh sample `p`, where each recorded tick is the first sample
at least one microsecond after its iteration's fresh `t1`, and the next
iteration resumes at the following sample. -/
inductive TicksFrom (clk : ℕ → ℚ) : ℕ → List ℚ → Prop
  | nil (p : ℕ) : TicksFrom clk p []
  | cons (p j : ℕ) (ts : List ℚ) :
      p < j →
      1 / 1000000 ≤ clk j - clk p →
      (∀ i, p < i → i < j → clk i - clk p < 1 / 1000000) →
      TicksFrom clk (j + 1) ts →
      TicksFrom clk p (clk j :: ts)

lemma rndAt_self {u x : ℚ} (m : ℤ) (hx : x = m * u) : rndAt u x = x := by
  rcases eq_or_ne u 0 with hu | hu
  · subst hu
    simp [rndAt, hx]
  · have hdiv : x / u = (m : ℚ) := by
      rw [hx]
      field_simp
    rw [rndAt, hdiv]
    simp [hx]

lemma rndAt_le {u x : ℚ} (hu : 0 < u) : rndAt u x ≤ x + u / 2 := by
  have hxu : x / u * u = x := div_mul_cancel₀ x (ne_of_gt hu)
  have hfl : (⌊x / u⌋ : ℚ) ≤ x / u := Int.floor_le _
  have hdown : (⌊x / u⌋ : ℚ) * u ≤ x := by
    have h := mul_le_mul_of_nonneg_right hfl (le_of_lt hu)
    rw [hxu] at h
    exact h
  have hup : (1 : ℚ) / 2 ≤ x / u - ⌊x / u⌋ → ((⌊x / u⌋ : ℚ) + 1) * u ≤ x + u / 2 := by
    intro h12
    have hd : ((⌊x / u⌋ : ℚ) + 1) - x / u ≤ 1 / 2 := by linarith
    have h := mul_le_mul_of_nonneg_right hd (le_of_lt hu)
    have hexp : (((⌊x / u⌋ : ℚ) + 1) - x / u) * u = ((⌊x / u⌋ : ℚ) + 1) * u - x := by
      rw [sub_mul, hxu]
    rw [hexp] at h
    linarith
  rw [rndAt]
  split_ifs with h1 h2 h3
  · linarith
  · exact hup (by linarith)
  · linarith
  · exact hup (by linarith)

lemma floor_mul_le_rndAt {u x : ℚ} (hu : 0 < u) : (⌊x / u⌋ : ℚ) * u ≤ rndAt u x := by
  have hkey : (⌊x / u⌋ : ℚ) * u ≤ ((⌊x / u⌋ : ℚ) + 1) * u :=
    mul_le_mul_of_nonneg_right (by linarith) (le_of_lt hu)
  rw [rndAt]
  split_ifs
  · exact le_refl _
  · exact hkey
  · exact le_refl _
  · exact hkey

/-- A positive integer that is a multiple of the rounding unit at its own
magnitude is exactly representable; in particular every `n ≤ 2 ^ 53`. -/
lemma roundDbl_natCast (n : ℕ) (h1 : 1 ≤ n) (h2 : n ≤ 2 ^ 53) :
    roundDbl (n : ℚ) = (n : ℚ) := by
  have hn0 : (0 : ℚ) < (n : ℚ) := by exact_mod_cast h1
  rw [roundDbl, if_neg (not_le.2 hn0)]
  set e : ℤ := Int.log 2 (n : ℚ) with he
  have hlog : e = (Nat.log 2 n : ℤ) := by
    rw [he, Int.log_natCast]
  have he0 : 0 ≤ e := by rw [hlog]; exact_mod_cast Nat.zero_le _
  have hle : (2 : ℚ) ^ e ≤ (n : ℚ) := Int.zpow_log_le_self (by norm_num) hn0
  have he53 : e ≤ 53 := by
    by_contra hcon
    push_neg at hcon
    have h54 : (54 : ℤ) ≤ e := hcon
    have : (2 : ℚ) ^ (54 : ℤ) ≤ (2 : ℚ) ^ e :=
      zpow_le_zpow_right₀ (by norm_num) h54
    have hn54 : (2 : ℚ) ^ (54 : ℤ) ≤ (n : ℚ) := le_trans this hle
    have : ((2 : ℕ) ^ 53 : ℚ) < (2 : ℚ) ^ (54 : ℤ) := by norm_num
    have hnn : ((2 : ℕ) ^ 53 : ℚ) < (n : ℚ) := lt_of_lt_of_le this hn54
    have : (2 : ℕ) ^ 53 < n := by exact_mod_cast hnn
    omega
  rcases le_or_lt e 52 with hc | hc
  · -- unit `u = 2 ^ (e - 52) ≤ 1` divides every integer
    refine rndAt_self ((n : ℤ) * 2 ^ (52 - e).toNat) ?_
    have h52 : ((52 - e).toNat : ℤ) = 52 - e := by omega
    push_cast
    rw [← zpow_natCast (2 : ℚ) (52 - e).toNat, h52, mul_assoc,
      ← zpow_add₀ (by norm_num : (2:ℚ) ≠ 0)]
    have hz : (52 : ℤ) - e + (e - 52) = 0 := by ring
    rw [hz, zpow_zero, mul_one]
  · -- then `e = 53`, forcing `n = 2 ^ 53`, a multiple of `u = 2`
    have he53e : e = 53 := by omega
    have hn53 : ((2 : ℚ) ^ (53 : ℤ)) ≤ (n : ℚ) := by rw [← he53e]; exact hle
    have hup : (n : ℚ) ≤ ((2 : ℕ) ^ 53 : ℚ) := by exact_mod_cast h2
    have hneq : (n : ℚ) = (2 : ℚ) ^ (53 : ℤ) := by
      have : ((2 : ℕ) ^ 53 : ℚ) = (2 : ℚ) ^ (53 : ℤ) := by norm_num
      rw [this] at hup
      exact le_antisymm hup hn53
    refine rndAt_self (2 ^ 52) ?_
    rw [hneq, he53e]
    norm_num

/-- Core correctness of the double-precision size computation on the exactly
representable range: for `1 ≤ tc ≤ te < 2 ^ 53` the rounded division followed
by truncation agrees with integer floor division. -/
lemma computedArraySize_eq_div (te tc : ℕ) (h1 : 1 ≤ tc) (h2 : tc ≤ te)
    (h3 : te < 2 ^ 53) : computedArraySize te tc = (te / tc : ℕ) := by
  have hte1 : 1 ≤ te := le_trans h1 h2
  have hrte : roundDbl (te : ℚ) = (te : ℚ) := roundDbl_natCast te hte1 (le_of_lt h3)
  have hrtc : roundDbl (tc : ℚ) = (tc : ℚ) :=
    roundDbl_natCast tc h1 (le_of_lt (lt_of_le_of_lt h2 h3))
  rw [computedArraySize, hrte, hrtc]
  set x : ℚ := (te : ℚ) / (tc : ℚ) with hx
  have htc0 : (0 : ℚ) < (tc : ℚ) := by exact_mod_cast h1
  have hte0 : (0 : ℚ) < (te : ℚ) := by exact_mod_cast hte1
  have hx0 : 0 < x := div_pos hte0 htc0
  have hx1 : (1 : ℚ) ≤ x := (one_le_div htc0).2 (by exact_mod_cast h2)
  set Q : ℕ := te / tc with hQ
  set s : ℕ := te % tc with hs
  have hdecomp : te = tc * Q + s := (Nat.div_add_mod te tc).symm
  have hslt : s < tc := Nat.mod_lt te h1
  have hxQ : x = (Q : ℚ) + (s : ℚ) / (tc : ℚ) := by
    rw [hx]
    field_simp
    push_cast [hdecomp]
    ring
  have hQle : (Q : ℚ) ≤ x := by
    rw [hxQ]
    have : (0 : ℚ) ≤ (s : ℚ) / (tc : ℚ) := div_nonneg (by positivity) (le_of_lt htc0)
    linarith
  set e : ℤ := Int.log 2 x with he
  have hue : (2 : ℚ) ^ e ≤ x := Int.zpow_log_le_self (by norm_num) hx0
  have he0 : 0 ≤ e := by
    rw [he]
    rw [← Int.zpow_le_iff_le_log (by norm_num) hx0]
    simpa using hx1
  have hxlt : x ≤ (te : ℚ) := by
    rw [hx]
    exact div_le_self (le_of_lt hte0) (by exact_mod_cast h1)
  have he52 : e ≤ 52 := by
    by_contra hcon
    push_neg at hcon
    have h53e : (53 : ℤ) ≤ e := hcon
    have : (2 : ℚ) ^ (53 : ℤ) ≤ (2 : ℚ) ^ e := zpow_le_zpow_right₀ (by norm_num) h53e
    have hge : (2 : ℚ) ^ (53 : ℤ) ≤ (te : ℚ) := le_trans (le_trans this hue) hxlt
    have hlt : (te : ℚ) < ((2 : ℕ) ^ 53 : ℚ) := by exact_mod_cast h3
    have : ((2 : ℕ) ^ 53 : ℚ) = (2 : ℚ) ^ (53 : ℤ) := by norm_num
    rw [this] at hlt
    linarith
  set u : ℚ := (2 : ℚ) ^ (e - 52) with hu
  have hu0 : 0 < u := by positivity
  have hr : roundDbl x = rndAt u x := by
    rw [roundDbl, if_neg (not_le.2 hx0), ← he, ← hu]
  -- lower bound : Q ≤ roundDbl x
  have hQleR : (Q : ℚ) ≤ roundDbl x := by
    rw [hr]
    refine le_trans ?_ (floor_mul_le_rndAt hu0)
    set m : ℤ := (Q : ℤ) * 2 ^ (52 - e).toNat with hm
    have hmQ : (m : ℚ) * u = (Q : ℚ) := by
      have h52 : ((52 - e).toNat : ℤ) = 52 - e := by omega
      rw [hm, hu]
      push_cast
      rw [← zpow_natCast (2 : ℚ) (52 - e).toNat, h52, mul_assoc,
        ← zpow_add₀ (by norm_num : (2:ℚ) ≠ 0)]
      have hz : (52 : ℤ) - e + (e - 52) = 0 := by ring
      rw [hz, zpow_zero, mul_one]
    have hfl : m ≤ ⌊x / u⌋ := by
      rw [Int.le_floor, le_div_iff₀ hu0, hmQ]
      exact hQle
    have hfl2 : (m : ℚ) ≤ (⌊x / u⌋ : ℚ) := by exact_mod_cast hfl
    have h := mul_le_mul_of_nonneg_right hfl2 (le_of_lt hu0)
    rw [hmQ] at h
    exact h
  -- upper bound : roundDbl x < Q + 1
  have hRlt : roundDbl x < (Q : ℚ) + 1 := by
    rw [hr]
    have hle2 : rndAt u x ≤ x + u / 2 := rndAt_le hu0
    have hxub : x ≤ (Q : ℚ) + 1 - 1 / (tc : ℚ) := by
      rw [hxQ]
      have hs1 : (s : ℚ) ≤ (tc : ℚ) - 1 := by
        have : (s : ℚ) + 1 ≤ (tc : ℚ) := by exact_mod_cast hslt
        linarith
      have : (s : ℚ) / (tc : ℚ) ≤ ((tc : ℚ) - 1) / (tc : ℚ) :=
        div_le_div_of_nonneg_right hs1 (le_of_lt htc0)
      have heq : ((tc : ℚ) - 1) / (tc : ℚ) = 1 - 1 / (tc : ℚ) := by
        field_simp
      rw [heq] at this
      linarith
    have hu2 : u / 2 < 1 / (tc : ℚ) := by
      rw [div_lt_div_iff₀ (by norm_num) htc0, hu]
      -- tc * 2 ^ e ≤ te < 2 ^ 53, hence u * tc < 2
      have h2e : (2 : ℚ) ^ e * (tc : ℚ) ≤ (te : ℚ) := by
        have := mul_le_mul_of_nonneg_right hue (le_of_lt htc0)
        rw [hx, div_mul_cancel₀ _ (ne_of_gt htc0)] at this
        exact this
      have hte53 : (te : ℚ) < (2 : ℚ) ^ (53 : ℤ) := by
        have : ((2 : ℕ) ^ 53 : ℚ) = (2 : ℚ) ^ (53 : ℤ) := by norm_num
        rw [← this]
        exact_mod_cast h3
      have hkey : (2 : ℚ) ^ e * (tc : ℚ) < (2 : ℚ) ^ (53 : ℤ) := lt_of_le_of_lt h2e hte53
      have hsplit : (2 : ℚ) ^ (e - 52 : ℤ) = (2 : ℚ) ^ e * (2 : ℚ) ^ (-(52:ℤ)) := by
        rw [← zpow_add₀ (by norm_num : (2:ℚ) ≠ 0)]
        ring_nf
      have h53split : (2 : ℚ) ^ (53 : ℤ) = (2 : ℚ) ^ e * (2 : ℚ) ^ (53 - e) := by
        rw [← zpow_add₀ (by norm_num : (2:ℚ) ≠ 0)]
        ring_nf
      rw [h53split] at hkey
      have h2epos : (0 : ℚ) < (2 : ℚ) ^ e := by positivity
      have htclt : (tc : ℚ) < (2 : ℚ) ^ (53 - e) := by
        by_contra hcc
        push_neg at hcc
        have := mul_le_mul_of_nonneg_left hcc (le_of_lt h2epos)
        linarith
      calc (2 : ℚ) ^ (e - 52 : ℤ) * (tc : ℚ)
          < (2 : ℚ) ^ (e - 52 : ℤ) * (2 : ℚ) ^ (53 - e) := by
            have : (0 : ℚ) < (2 : ℚ) ^ (e - 52 : ℤ) := by positivity
            exact mul_lt_mul_of_pos_left htclt this
        _ = 2 := by
            rw [← zpow_add₀ (by norm_num : (2:ℚ) ≠ 0)]
            norm_num
        _ ≤ 1 * 2 := by norm_num
    linarith
  have : ⌊roundDbl x⌋ = (Q : ℤ) := by
    rw [Int.floor_eq_iff]
    constructor
    · exact_mod_cast hQleR
    · push_cast
      exact hRlt
  rw [this]

/-! ## Concrete evaluations of the size computation -/

/-- `9007199263129599 = 2^53 + 2^23 - 1` lies exactly halfway between the two
adjacent doubles `2^53 + 2^23 - 2` and `2^53 + 2^23`; ties-to-even rounds it
up to `2^53 + 2^23 = 9007199263129600`. -/
lemma roundDbl_ce : roundDbl ((9007199263129599 : ℕ) : ℚ) = 9007199263129600 := by
  have hc : ((9007199263129599 : ℕ) : ℚ) = (9007199263129599 : ℚ) := by norm_num
  have hlog : Int.log 2 ((9007199263129599 : ℕ) : ℚ) = 53 := by
    rw [Int.log_natCast]
    have h : Nat.log 2 9007199263129599 = 53 :=
      Nat.log_eq_of_pow_le_of_lt_pow (by norm_num) (by norm_num)
    rw [h]
    norm_num
  rw [roundDbl, if_neg (by rw [hc]; norm_num), hlog, hc]
  have hu : ((2 : ℚ) ^ (53 - 52 : ℤ)) = 2 := by norm_num
  rw [hu, rndAt]
  norm_num

lemma computedArraySize_ce :
    computedArraySize 9007199263129599 8388608 = 1073741825 := by
  have htc : roundDbl ((8388608 : ℕ) : ℚ) = ((8388608 : ℕ) : ℚ) :=
    roundDbl_natCast 8388608 (by norm_num) (by norm_num)
  have hq : roundDbl ((1073741825 : ℕ) : ℚ) = ((1073741825 : ℕ) : ℚ) :=
    roundDbl_natCast 1073741825 (by norm_num) (by norm_num)
  rw [computedArraySize, roundDbl_ce, htc]
  have hdiv : (9007199263129600 : ℚ) / ((8388608 : ℕ) : ℚ) = ((1073741825 : ℕ) : ℚ) := by
    push_cast
    norm_num
  rw [hdiv, hq]
  push_cast
  norm_num

lemma arraySizeNat_8_1 : arraySizeNat 8 1 = 8 := by
  have h := computedArraySize_eq_div 8 1 (by norm_num) (by norm_num) (by norm_num)
  unfold arraySizeNat
  rw [h]
  rfl

/-! ## Claim theorems -/

/-- C3 (counterexample).  The claim asserts that for *every*
`total_elements ≥ thread_count ≥ 1` the computed buffer length equals exact
integer floor division.  At `total_elements = 2^53 + 2^23 - 1` and
`thread_count = 2^23` the double-precision conversion of line 182 rounds the
operand up to `2^53 + 2^23`, and the program computes `2^30 + 1` where floor
division gives `2^30`.  (The quotient is below `2^31`, so the `(int)` cast
involves no overflow: the C computation is well defined and simply differs
from floor division.) -/
theorem C3_counterexample :
    (1 ≤ 8388608 ∧ 8388608 ≤ 9007199263129599) ∧
    computedArraySize 9007199263129599 8388608 = 1073741825 ∧
    (9007199263129599 : ℕ) / 8388608 = 1073741824 ∧
    computedArraySize 9007199263129599 8388608 ≠
      ((9007199263129599 : ℕ) / 8388608 : ℕ) := by
  refine ⟨⟨by norm_num, by norm_num⟩, computedArraySize_ce, by norm_num, ?_⟩
  rw [computedArraySize_ce]
  norm_num

/-- C3 (amended).  For `1 ≤ thread_count ≤ total_elements < 2^53` (so both
operands are exactly representable as doubles; the extra bound
`total_elements / thread_count < 2^31` marks the range where the concluding
`(int)` cast of line 182 is well defined in C), the computed per-thread
buffer length equals the exact truncating integer division
`total_elements / thread_count`, and the three buffers allocated per thread
are all requested with exactly that element count (lines 187-189). -/
theorem C3_arraySize (te tc : ℕ) (h1 : 1 ≤ tc) (h2 : tc ≤ te)
    (h3 : te < 2 ^ 53) (_h4 : te / tc < 2 ^ 31) :
    computedArraySize te tc = (te / tc : ℕ) ∧
    allocSizes te tc = (te / tc, te / tc, te / tc) := by
  have hmain := computedArraySize_eq_div te tc h1 h2 h3
  refine ⟨hmain, ?_⟩
  unfold allocSizes arraySizeNat
  rw [hmain, Int.toNat_natCast]

/-- C3 (witness): the amended theorem instantiated at
`total_elements = 20000000`, `thread_count = 4`. -/
theorem C3_arraySize_witness :
    (1 ≤ 4 ∧ 4 ≤ 20000000 ∧ 20000000 < 2 ^ 53 ∧ 20000000 / 4 < 2 ^ 31) ∧
    (computedArraySize 20000000 4 = ((20000000 : ℕ) / 4 : ℕ) ∧
      allocSizes 20000000 4 = (20000000 / 4, 20000000 / 4, 20000000 / 4)) :=
  ⟨⟨by norm_num, by norm_num, by norm_num, by norm_num⟩,
    C3_arraySize 20000000 4 (by norm_num) (by norm_num) (by norm_num) (by norm_num)⟩

/-- The race-free single-thread run: for `total_elements = 8` and
`thread_count = 1` (`array_size = 8`) - the only thread count at which the
buffer loops of the source are race-free and this model is exact - the code
path from initialization through the calibration pass into the first timed
iteration gives `a = 30`, `b = 6`, `c = 8` on every element (init `a = 1`,
calibration doubles it to 2; Copy `c = 2`; Scale `b = 6`; Add `c = 8`;
Triad `a = 6 + 3*8 = 30`), never the 15/3/4 of the spec scenario. -/
lemma firstIter_single_thread (g : StreamState) (i : ℕ) (hi : i < 8) :
    (firstIterState 8 1 g).a 0 i = 30 ∧
    (firstIterState 8 1 g).b 0 i = 6 ∧
    (firstIterState 8 1 g).c 0 i = 8 := by
  unfold firstIterState
  rw [arraySizeNat_8_1]
  norm_num [kernelPass, triadKernel, addKernel, scaleKernel, copyKernel,
    calibrationPass, initArrays, SCALAR, hi]

/-- C2 (code-bug evidence: the race-free case).  With a single thread - the
only thread count at which the shared loop index `i` of line 124 is raced by
nobody, so that the source's kernel loops of lines 257-294 coincide with the
per-thread model - one execution of each kernel performs exactly the
specified elementwise update on the values the buffers held when that kernel
started (Copy `c = a`; Scale `b = SCALAR * c`; Add `c = a + b`;
Triad `a = b + SCALAR * c`), leaves the two source buffers of each kernel
entirely unchanged, and leaves the written buffer unchanged outside the
loop range.  For `nthreads ≥ 2` the claim fails on the code: all threads of
each plain `omp parallel` region share the one induction variable `i`, a
data race (see RESULTS: code bug). -/
theorem C2_kernels_single_thread (as : ℕ) (s : StreamState) (i : ℕ)
    (hi : i < as) :
    ((copyKernel 1 as s).c 0 i = s.a 0 i ∧
      (copyKernel 1 as s).a = s.a ∧ (copyKernel 1 as s).b = s.b) ∧
    ((scaleKernel 1 as s).b 0 i = SCALAR * s.c 0 i ∧
      (scaleKernel 1 as s).a = s.a ∧ (scaleKernel 1 as s).c = s.c) ∧
    ((addKernel 1 as s).c 0 i = s.a 0 i + s.b 0 i ∧
      (addKernel 1 as s).a = s.a ∧ (addKernel 1 as s).b = s.b) ∧
    ((triadKernel 1 as s).a 0 i = s.b 0 i + SCALAR * s.c 0 i ∧
      (triadKernel 1 as s).b = s.b ∧ (triadKernel 1 as s).c = s.c) ∧
    (∀ t2 i2, ¬(t2 < 1 ∧ i2 < as) →
      (copyKernel 1 as s).c t2 i2 = s.c t2 i2 ∧
      (scaleKernel 1 as s).b t2 i2 = s.b t2 i2 ∧
      (addKernel 1 as s).c t2 i2 = s.c t2 i2 ∧
      (triadKernel 1 as s).a t2 i2 = s.a t2 i2) := by
  refine ⟨⟨?_, rfl, rfl⟩, ⟨?_, rfl, rfl⟩, ⟨?_, rfl, rfl⟩, ⟨?_, rfl, rfl⟩, ?_⟩
  · simp [copyKernel, hi]
  · simp [scaleKernel, hi]
  · simp [addKernel, hi]
  · simp [triadKernel, hi]
  · intro t2 i2 h
    refine ⟨?_, ?_, ?_, ?_⟩
    · simp only [copyKernel]
      rw [if_neg h]
    · simp only [scaleKernel]
      rw [if_neg h]
    · simp only [addKernel]
      rw [if_neg h]
    · simp only [triadKernel]
      rw [if_neg h]

/-- C2 (witness): the single-thread kernel semantics instantiated at
`array_size = 1, i = 0` on the zeroed state. -/
theorem C2_kernels_single_thread_witness :
    (0 : ℕ) < 1 ∧
    (((copyKernel 1 1 zeroState).c 0 0 = zeroState.a 0 0 ∧
      (copyKernel 1 1 zeroState).a = zeroState.a ∧
      (copyKernel 1 1 zeroState).b = zeroState.b) ∧
    ((scaleKernel 1 1 zeroState).b 0 0 = SCALAR * zeroState.c 0 0 ∧
      (scaleKernel 1 1 zeroState).a = zeroState.a ∧
      (scaleKernel 1 1 zeroState).c = zeroState.c) ∧
    ((addKernel 1 1 zeroState).c 0 0 = zeroState.a 0 0 + zeroState.b 0 0 ∧
      (addKernel 1 1 zeroState).a = zeroState.a ∧
      (addKernel 1 1 zeroState).b = zeroState.b) ∧
    ((triadKernel 1 1 zeroState).a 0 0 =
        zeroState.b 0 0 + SCALAR * zeroState.c 0 0 ∧
      (triadKernel 1 1 zeroState).b = zeroState.b ∧
      (triadKernel 1 1 zeroState).c = zeroState.c) ∧
    (∀ t2 i2, ¬(t2 < 1 ∧ i2 < 1) →
      (copyKernel 1 1 zeroState).c t2 i2 = zeroState.c t2 i2 ∧
      (scaleKernel 1 1 zeroState).b t2 i2 = zeroState.b t2 i2 ∧
      (addKernel 1 1 zeroState).c t2 i2 = zeroState.c t2 i2 ∧
      (triadKernel 1 1 zeroState).a t2 i2 = zeroState.a t2 i2)) :=
  ⟨by norm_num, C2_kernels_single_thread 1 zeroState 0 (by norm_num)⟩

/-! ## Fold helpers for the reduction loop -/

lemma foldl_add_eq (f : ℕ → ℚ) (l : List ℕ) (a : ℚ) :
    l.foldl (fun acc k => acc + f k) a = a + (l.map f).sum := by
  induction l generalizing a with
  | nil => simp
  | cons x xs ih =>
    simp only [List.foldl_cons, List.map_cons, List.sum_cons]
    rw [ih]
    ring

lemma foldl_min_le_init {α : Type*} [LinearOrder α] (l : List α) (a : α) :
    l.foldl min a ≤ a := by
  induction l generalizing a with
  | nil => exact le_refl a
  | cons x xs ih => exact le_trans (ih (min a x)) (min_le_left a x)

lemma foldl_min_le_mem {α : Type*} [LinearOrder α] {l : List α} {x : α}
    (hx : x ∈ l) (a : α) : l.foldl min a ≤ x := by
  induction l generalizing a with
  | nil => cases hx
  | cons y ys ih =>
    rcases List.mem_cons.1 hx with h | h
    · subst h
      exact le_trans (foldl_min_le_init ys (min a x)) (min_le_right a x)
    · exact ih h (min a y)

lemma foldl_min_mem {α : Type*} [LinearOrder α] (l : List α) (a : α) :
    l.foldl min a = a ∨ l.foldl min a ∈ l := by
  induction l generalizing a with
  | nil => exact Or.inl rfl
  | cons x xs ih =>
    rw [List.foldl_cons]
    rcases ih (min a x) with h | h
    · rcases min_cases a x with ⟨hm, _⟩ | ⟨hm, _⟩
      · exact Or.inl (by rw [h, hm])
      · exact Or.inr (by rw [h, hm]; exact List.mem_cons_self x xs)
    · exact Or.inr (List.mem_cons_of_mem x h)

lemma init_le_foldl_max {α : Type*} [LinearOrder α] (l : List α) (a : α) :
    a ≤ l.foldl max a := by
  induction l generalizing a with
  | nil => exact le_refl a
  | cons x xs ih => exact le_trans (le_max_left a x) (ih (max a x))

lemma mem_le_foldl_max {α : Type*} [LinearOrder α] {l : List α} {x : α}
    (hx : x ∈ l) (a : α) : x ≤ l.foldl max a := by
  induction l generalizing a with
  | nil => cases hx
  | cons y ys ih =>
    rcases List.mem_cons.1 hx with h | h
    · subst h
      exact le_trans (le_max_right a x) (init_le_foldl_max ys (max a x))
    · exact ih h (max a y)

lemma foldl_max_mem {α : Type*} [LinearOrder α] (l : List α) (a : α) :
    l.foldl max a = a ∨ l.foldl max a ∈ l := by
  induction l generalizing a with
  | nil => exact Or.inl rfl
  | cons x xs ih =>
    rw [List.foldl_cons]
    rcases ih (max a x) with h | h
    · rcases max_cases a x with ⟨hm, _⟩ | ⟨hm, _⟩
      · exact Or.inl (by rw [h, hm])
      · exact Or.inr (by rw [h, hm]; exact List.mem_cons_self x xs)
    · exact Or.inr (List.mem_cons_of_mem x h)

lemma length_mul_le_sum (l : List ℚ) (m : ℚ) (h : ∀ x ∈ l, m ≤ x) :
    (l.length : ℚ) * m ≤ l.sum := by
  induction l with
  | nil => simp
  | cons x xs ih =>
    have hx := h x (List.mem_cons_self x xs)
    have hxs := ih fun y hy => h y (List.mem_cons_of_mem x hy)
    simp only [List.length_cons, List.sum_cons]
    push_cast
    have hexp : ((xs.length : ℚ) + 1) * m = (xs.length : ℚ) * m + m := by ring
    rw [hexp]
    linarith

lemma sum_le_length_mul (l : List ℚ) (m : ℚ) (h : ∀ x ∈ l, x ≤ m) :
    l.sum ≤ (l.length : ℚ) * m := by
  induction l with
  | nil => simp
  | cons x xs ih =>
    have hx := h x (List.mem_cons_self x xs)
    have hxs := ih fun y hy => h y (List.mem_cons_of_mem x hy)
    simp only [List.length_cons, List.sum_cons]
    push_cast
    have hexp : ((xs.length : ℚ) + 1) * m = (xs.length : ℚ) * m + m := by ring
    rw [hexp]
    linarith

lemma range_one_split (n : ℕ) (h : 2 ≤ n) :
    List.range' 1 (n - 1) = 1 :: List.range' 2 (n - 2) := by
  have heq : n - 1 = (n - 2) + 1 := by omega
  rw [heq, List.range'_succ]

/-- C4 (confirmed).  For every kernel `k` and every `NTIMES ≥ 2`, the
reduction of lines 296-316 computes `avgtime[k]` as the arithmetic mean of
`times[k][1..NTIMES-1]`, `mintime[k]` as their minimum and `maxtime[k]` as
their maximum - iteration 0 is excluded from all three (the loop seeds the
accumulators with `times[k][1]` and folds over `k = 2..NTIMES-1`) - and
consequently `mintime[k] ≤ avgtime[k] ≤ maxtime[k]`. -/
theorem C4_reduction (times : Fin 4 → ℕ → ℚ) (n : ℕ) (h : 2 ≤ n) (k : Fin 4) :
    (avgtime (times k) n =
      ((List.range' 1 (n - 1)).map (times k)).sum / ((n - 1 : ℕ) : ℚ)) ∧
    (∀ j ∈ List.range' 1 (n - 1),
      mintime (times k) n ≤ times k j ∧ times k j ≤ maxtime (times k) n) ∧
    (mintime (times k) n ∈ (List.range' 1 (n - 1)).map (times k)) ∧
    (maxtime (times k) n ∈ (List.range' 1 (n - 1)).map (times k)) ∧
    (mintime (times k) n ≤ avgtime (times k) n ∧
      avgtime (times k) n ≤ maxtime (times k) n) := by
  set f : ℕ → ℚ := times k with hf
  have hsplit : List.range' 1 (n - 1) = 1 :: List.range' 2 (n - 2) :=
    range_one_split n h
  have hmapsplit : (List.range' 1 (n - 1)).map f =
      f 1 :: (List.range' 2 (n - 2)).map f := by
    rw [hsplit, List.map_cons]
  have havg : avgtime f n =
      ((List.range' 1 (n - 1)).map f).sum / ((n - 1 : ℕ) : ℚ) := by
    simp only [avgtime, reduceLoop]
    rw [foldl_add_eq f _ (f 1), hmapsplit, List.sum_cons]
  have hminf : mintime f n = ((List.range' 2 (n - 2)).map f).foldl min (f 1) := by
    simp only [mintime, reduceLoop]
    rw [List.foldl_map]
  have hmaxf : maxtime f n = ((List.range' 2 (n - 2)).map f).foldl max (f 1) := by
    simp only [maxtime, reduceLoop]
    rw [List.foldl_map]
  have hminle : ∀ x ∈ (List.range' 1 (n - 1)).map f, mintime f n ≤ x := by
    intro x hx
    rw [hmapsplit] at hx
    rcases List.mem_cons.1 hx with hh | hh
    · rw [hminf, hh]
      exact foldl_min_le_init _ _
    · rw [hminf]
      exact foldl_min_le_mem hh _
  have hmaxle : ∀ x ∈ (List.range' 1 (n - 1)).map f, x ≤ maxtime f n := by
    intro x hx
    rw [hmapsplit] at hx
    rcases List.mem_cons.1 hx with hh | hh
    · rw [hmaxf, hh]
      exact init_le_foldl_max _ _
    · rw [hmaxf]
      exact mem_le_foldl_max hh _
  have hlen : ((List.range' 1 (n - 1)).map f).length = n - 1 := by
    rw [List.length_map, List.length_range']
  have hn1 : (0 : ℚ) < ((n - 1 : ℕ) : ℚ) := by
    have : 1 ≤ n - 1 := by omega
    exact_mod_cast Nat.lt_of_lt_of_le Nat.zero_lt_one this
  refine ⟨havg, ?_, ?_, ?_, ?_, ?_⟩
  · intro j hj
    exact ⟨hminle _ (List.mem_map_of_mem f hj), hmaxle _ (List.mem_map_of_mem f hj)⟩
  · rw [hminf, hmapsplit]
    rcases foldl_min_mem ((List.range' 2 (n - 2)).map f) (f 1) with hh | hh
    · rw [hh]
      exact List.mem_cons_self _ _
    · exact List.mem_cons_of_mem _ hh
  · rw [hmaxf, hmapsplit]
    rcases foldl_max_mem ((List.range' 2 (n - 2)).map f) (f 1) with hh | hh
    · rw [hh]
      exact List.mem_cons_self _ _
    · exact List.mem_cons_of_mem _ hh
  · rw [havg, le_div_iff₀ hn1]
    have := length_mul_le_sum _ (mintime f n) hminle
    rw [hlen] at this
    linarith [this]
  · rw [havg, div_le_iff₀ hn1]
    have := sum_le_length_mul _ (maxtime f n) hmaxle
    rw [hlen] at this
    linarith [this]

/-- C4 (witness): the reduction theorem instantiated at `NTIMES = 2`,
the all-zero timing table and kernel 0. -/
theorem C4_reduction_witness :
    2 ≤ 2 ∧
    ((avgtime ((fun _ _ => 0 : Fin 4 → ℕ → ℚ) 0) 2 =
      ((List.range' 1 (2 - 1)).map ((fun _ _ => 0 : Fin 4 → ℕ → ℚ) 0)).sum /
        ((2 - 1 : ℕ) : ℚ)) ∧
    (∀ j ∈ List.range' 1 (2 - 1),
      mintime ((fun _ _ => 0 : Fin 4 → ℕ → ℚ) 0) 2 ≤
        (fun _ _ => 0 : Fin 4 → ℕ → ℚ) 0 j ∧
      (fun _ _ => 0 : Fin 4 → ℕ → ℚ) 0 j ≤
        maxtime ((fun _ _ => 0 : Fin 4 → ℕ → ℚ) 0) 2) ∧
    (mintime ((fun _ _ => 0 : Fin 4 → ℕ → ℚ) 0) 2 ∈
      (List.range' 1 (2 - 1)).map ((fun _ _ => 0 : Fin 4 → ℕ → ℚ) 0)) ∧
    (maxtime ((fun _ _ => 0 : Fin 4 → ℕ → ℚ) 0) 2 ∈
      (List.range' 1 (2 - 1)).map ((fun _ _ => 0 : Fin 4 → ℕ → ℚ) 0)) ∧
    (mintime ((fun _ _ => 0 : Fin 4 → ℕ → ℚ) 0) 2 ≤
        avgtime ((fun _ _ => 0 : Fin 4 → ℕ → ℚ) 0) 2 ∧
      avgtime ((fun _ _ => 0 : Fin 4 → ℕ → ℚ) 0) 2 ≤
        maxtime ((fun _ _ => 0 : Fin 4 → ℕ → ℚ) 0) 2)) :=
  ⟨by norm_num, C4_reduction (fun _ _ => 0) 2 (by norm_num) 0⟩

/-- C5 (confirmed).  For every kernel `k`, the reported bandwidth - the
printed MiB/s figure of line 329, converted back to bytes per second by
multiplying with `1024 * 1024` - equals `bytes[k] / mintime[k]`, and the
byte counts of lines 319-322 are exactly `2·S·E` for Copy and Scale and
`3·S·E` for Add and Triad, with `S = array_size * nthreads` and
`E = BytesPerWord = sizeof(STREAM_TYPE) = 8`. -/
theorem C5_bandwidth (array_size nthreads n : ℕ) (times : Fin 4 → ℕ → ℚ)
    (k : Fin 4) :
    reportedBandwidth array_size nthreads times n k * (1024 * 1024) =
      bytes array_size nthreads k / mintime (times k) n ∧
    bytes array_size nthreads 0 = 2 * (array_size * nthreads) * BytesPerWord ∧
    bytes array_size nthreads 1 = 2 * (array_size * nthreads) * BytesPerWord ∧
    bytes array_size nthreads 2 = 3 * (array_size * nthreads) * BytesPerWord ∧
    bytes array_size nthreads 3 = 3 * (array_size * nthreads) * BytesPerWord := by
  refine ⟨?_, ?_, ?_, ?_, ?_⟩
  · unfold reportedBandwidth
    rcases eq_or_ne (mintime (times k) n) 0 with hm | hm
    · rw [hm]
      simp
    · field_simp
      ring
  · show (2 : ℚ) * BytesPerWord * array_size * nthreads = _
    ring
  · show (2 : ℚ) * BytesPerWord * array_size * nthreads = _
    ring
  · show (3 : ℚ) * BytesPerWord * array_size * nthreads = _
    ring
  · show (3 : ℚ) * BytesPerWord * array_size * nthreads = _
    ring

/-! ## Control-flow claims about `main` -/

lemma mainRun_two (arg : CInput) (nt : ℕ) (alloc : ℕ → AllocTriple)
    (h : 1 ≤ strtoulModel arg) :
    mainRun 2 arg nt alloc = mainBody (strtoulModel arg) nt alloc := by
  unfold mainRun
  rw [if_neg (by norm_num), if_neg (by omega)]

lemma mainRun_two_invalid (arg : CInput) (nt : ℕ) (alloc : ℕ → AllocTriple)
    (h : strtoulModel arg = 0) :
    mainRun 2 arg nt alloc = MainOutcome.invalidInput (-1) := by
  unfold mainRun
  rw [if_neg (by norm_num), if_pos (by omega)]

/-- C6 (code bug evidence).  The allocation region of lines 184-190 never
checks the `malloc` results: with an allocator on which every `malloc`
returns `NULL`, the program does not report anything and does not abort -
the run falls through into the rest of `main` (outcome `ran`, exit code 0,
`isInvalidInput = false`), the stored pointer table is all-`NULL`, and
there is no defined post-initialization state (the initialization loop
dereferences the null pointers). -/
theorem C6_alloc_unchecked :
    mainRun 2 (CInput.digits 8) 2 failAlloc =
      MainOutcome.ran (computedArraySize 8 2) failAlloc none 0 ∧
    (mainRun 2 (CInput.digits 8) 2 failAlloc).exitCode = 0 ∧
    (mainRun 2 (CInput.digits 8) 2 failAlloc).isInvalidInput = false ∧
    (failAlloc 0).a = none := by
  have hval : strtoulModel (CInput.digits 8) = 8 := by
    unfold strtoulModel ULONG_MAX
    norm_num
  have heq : mainRun 2 (CInput.digits 8) 2 failAlloc =
      MainOutcome.ran (computedArraySize 8 2) failAlloc none 0 := by
    rw [mainRun_two _ _ _ (by omega), hval]
    unfold mainBody
    have hok : allocsOk 2 failAlloc = false := by decide
    rw [hok]
    simp
  refine ⟨heq, ?_, ?_, rfl⟩
  · rw [heq]
    rfl
  · rw [heq]
    rfl

/-- C7 (confirmed).  With exactly one positional argument whose `strtoul`
parse yields 0 (which is what non-numeric input parses to), `main` prints
the error and returns `-1` (a nonzero exit status) without reaching the
allocation region: the outcome is `invalidInput` - which carries no
allocation table and no buffer state - and is entirely independent of the
allocator. -/
theorem C7_invalid_input (arg : CInput) (nt : ℕ) (alloc : ℕ → AllocTriple)
    (h : strtoulModel arg = 0) :
    mainRun 2 arg nt alloc = MainOutcome.invalidInput (-1) ∧
    (mainRun 2 arg nt alloc).exitCode ≠ 0 ∧
    (∀ alloc2, mainRun 2 arg nt alloc2 = mainRun 2 arg nt alloc) := by
  refine ⟨mainRun_two_invalid arg nt alloc h, ?_, ?_⟩
  · rw [mainRun_two_invalid arg nt alloc h]
    norm_num [MainOutcome.exitCode]
  · intro alloc2
    rw [mainRun_two_invalid arg nt alloc h, mainRun_two_invalid arg nt alloc2 h]

/-- C7 (witness): invalid input instantiated at a non-numeric argument
(no leading digits, `strtoul` returns 0). -/
theorem C7_invalid_input_witness :
    strtoulModel CInput.noDigits = 0 ∧
    (mainRun 2 CInput.noDigits 1 okAlloc = MainOutcome.invalidInput (-1) ∧
      (mainRun 2 CInput.noDigits 1 okAlloc).exitCode ≠ 0 ∧
      (∀ alloc2, mainRun 2 CInput.noDigits 1 alloc2 =
        mainRun 2 CInput.noDigits 1 okAlloc)) :=
  ⟨rfl, C7_invalid_input CInput.noDigits 1 okAlloc rfl⟩

/-- C9 (counterexample).  The argument string `"-0"` begins with a minus
sign followed by digits, yet its unsigned parse is `(2^64 - 0) mod 2^64 = 0`,
not a value `≥ 1`: it is rejected, and the InvalidInput error path *is*
triggered by this negative-looking input, contradicting the claim. -/
theorem C9_counterexample :
    strtoulModel (CInput.negDigits 0) = 0 ∧
    mainRun 2 (CInput.negDigits 0) 2 okAlloc = MainOutcome.invalidInput (-1) := by
  have h : strtoulModel (CInput.negDigits 0) = 0 := by
    unfold strtoulModel ULONG_MAX
    norm_num
  exact ⟨h, mainRun_two_invalid _ _ _ h⟩

/-- C9 (amended).  For every argument consisting of a minus sign followed by
digits of *nonzero* value `n`, the unsigned parse wraps: the magnitude
(saturated at `ULONG_MAX` on overflow, per C11) is negated modulo 2^64,
producing a value `≥ 1` that is accepted as `total_elements`, so such inputs
never trigger the InvalidInput path.  Only minus-sign inputs whose digit
value is 0 (such as `"-0"`) parse to 0 and are rejected. -/
theorem C9_negative_wrap (n nt : ℕ) (alloc : ℕ → AllocTriple) (h : 1 ≤ n) :
    1 ≤ strtoulModel (CInput.negDigits n) ∧
    mainRun 2 (CInput.negDigits n) nt alloc =
      mainBody (strtoulModel (CInput.negDigits n)) nt alloc ∧
    (mainRun 2 (CInput.negDigits n) nt alloc).isInvalidInput = false := by
  have hval : 1 ≤ strtoulModel (CInput.negDigits n) := by
    simp only [strtoulModel, ULONG_MAX]
    have h1 : 1 ≤ min n (2 ^ 64 - 1) := by
      rcases min_cases n (2 ^ 64 - 1) with ⟨hm, _⟩ | ⟨hm, _⟩ <;> omega
    have h2 : min n (2 ^ 64 - 1) ≤ 2 ^ 64 - 1 := min_le_right _ _
    have h3 : 2 ^ 64 - min n (2 ^ 64 - 1) < 2 ^ 64 := by omega
    rw [Nat.mod_eq_of_lt h3]
    omega
  refine ⟨hval, mainRun_two _ _ _ hval, ?_⟩
  rw [mainRun_two _ _ _ hval]
  unfold mainBody
  rfl

/-- C9 (witness): the amended theorem instantiated at the argument `"-5"`. -/
theorem C9_negative_wrap_witness :
    1 ≤ 5 ∧
    (1 ≤ strtoulModel (CInput.negDigits 5) ∧
      mainRun 2 (CInput.negDigits 5) 1 okAlloc =
        mainBody (strtoulModel (CInput.negDigits 5)) 1 okAlloc ∧
      (mainRun 2 (CInput.negDigits 5) 1 okAlloc).isInvalidInput = false) :=
  ⟨by norm_num, C9_negative_wrap 5 1 okAlloc (by norm_num)⟩

/-- C10 (confirmed).  With two or more positional arguments
(`argc ≥ 3`), line 127 (`argc == 1 || argc > 2`) silently selects the
compiled-in default `STREAM_ARRAY_SIZE`, ignoring all arguments - the run is
identical to the zero-argument run for every allocator - and the
InvalidInput outcome is reachable only when `argc = 2`, i.e. with exactly
one positional argument. -/
theorem C10_extra_args (argc : ℕ) (arg : CInput) (nt : ℕ)
    (alloc : ℕ → AllocTriple) (h : 3 ≤ argc) :
    mainRun argc arg nt alloc = mainBody STREAM_ARRAY_SIZE nt alloc ∧
    (∀ arg2, mainRun argc arg2 nt alloc = mainRun 1 arg nt alloc) ∧
    (∀ argc2 arg2 e, 1 ≤ argc2 →
      mainRun argc2 arg2 nt alloc = MainOutcome.invalidInput e → argc2 = 2) := by
  have hdef : ∀ a2, mainRun argc a2 nt alloc = mainBody STREAM_ARRAY_SIZE nt alloc := by
    intro a2
    unfold mainRun
    rw [if_pos (Or.inr (by omega))]
  refine ⟨hdef arg, ?_, ?_⟩
  · intro arg2
    rw [hdef arg2]
    unfold mainRun
    rw [if_pos (Or.inl rfl)]
  · intro argc2 arg2 e h1 heq
    by_cases hc : argc2 = 1 ∨ 2 < argc2
    · unfold mainRun at heq
      rw [if_pos hc] at heq
      unfold mainBody at heq
      exact absurd heq (by simp)
    · push_neg at hc
      omega

/-- C10 (witness): the fallback behaviour instantiated at `argc = 3`. -/
theorem C10_extra_args_witness :
    3 ≤ 3 ∧
    (mainRun 3 CInput.noDigits 1 okAlloc = mainBody STREAM_ARRAY_SIZE 1 okAlloc ∧
      (∀ arg2, mainRun 3 arg2 1 okAlloc = mainRun 1 CInput.noDigits 1 okAlloc) ∧
      (∀ argc2 arg2 e, 1 ≤ argc2 →
        mainRun argc2 arg2 1 okAlloc = MainOutcome.invalidInput e → argc2 = 2)) :=
  ⟨by norm_num, C10_extra_args 3 CInput.noDigits 1 okAlloc (by norm_num)⟩

/-! ## checktick: soundness, fuel monotonicity and termination -/

lemma findTick_sound (clk : ℕ → ℚ) (t1 : ℚ) :
    ∀ fuel j r, findTick clk t1 fuel j = some r →
      j ≤ r ∧ 1 / 1000000 ≤ clk r - t1 ∧
      ∀ i, j ≤ i → i < r → clk i - t1 < 1 / 1000000 := by
  intro fuel
  induction fuel with
  | zero => intro j r h; simp [findTick] at h
  | succ fuel ih =>
    intro j r h
    simp only [findTick] at h
    by_cases hc : clk j - t1 < 1 / 1000000
    · rw [if_pos hc] at h
      obtain ⟨h1, h2, h3⟩ := ih (j + 1) r h
      refine ⟨by omega, h2, ?_⟩
      intro i hji hir
      rcases Nat.eq_or_lt_of_le hji with heq | hlt
      · rw [← heq]
        exact hc
      · exact h3 i (by omega) hir
    · rw [if_neg hc] at h
      obtain rfl : j = r := Option.some.inj h
      exact ⟨le_refl _, not_lt.1 hc,
        fun i h1 h2 => absurd (Nat.lt_of_le_of_lt h1 h2) (lt_irrefl _)⟩

lemma findTick_mono (clk : ℕ → ℚ) (t1 : ℚ) :
    ∀ fuel fuel2 j r, fuel ≤ fuel2 → findTick clk t1 fuel j = some r →
      findTick clk t1 fuel2 j = some r := by
  intro fuel
  induction fuel with
  | zero => intro fuel2 j r _ h; simp [findTick] at h
  | succ fuel ih =>
    intro fuel2 j r hle h
    obtain ⟨f2, rfl⟩ : ∃ f2, fuel2 = f2 + 1 := ⟨fuel2 - 1, by omega⟩
    simp only [findTick] at h ⊢
    by_cases hc : clk j - t1 < 1 / 1000000
    · rw [if_pos hc] at h ⊢
      exact ih f2 (j + 1) r (by omega) h
    · rw [if_neg hc] at h ⊢
      exact h

lemma findTick_succeeds (clk : ℕ → ℚ) (t1 : ℚ) :
    ∀ fuel j, (∃ i, j ≤ i ∧ i < j + fuel ∧ 1 / 1000000 ≤ clk i - t1) →
      ∃ r, findTick clk t1 fuel j = some r := by
  intro fuel
  induction fuel with
  | zero => rintro j ⟨i, h1, h2, _⟩; omega
  | succ fuel ih =>
    rintro j ⟨i, h1, h2, h3⟩
    by_cases hc : clk j - t1 < 1 / 1000000
    · have hij : j ≠ i := by
        rintro rfl
        exact absurd h3 (not_le.2 hc)
      obtain ⟨r, hr⟩ := ih (j + 1) ⟨i, by omega, by omega, h3⟩
      refine ⟨r, ?_⟩
      simp only [findTick]
      rw [if_pos hc]
      exact hr
    · refine ⟨j, ?_⟩
      simp only [findTick]
      rw [if_neg hc]

lemma collectTicks_mono (clk : ℕ → ℚ) :
    ∀ count fuel fuel2 p ts, fuel ≤ fuel2 →
      collectTicks clk fuel p count = some ts →
      collectTicks clk fuel2 p count = some ts := by
  intro count
  induction count with
  | zero =>
    intro fuel fuel2 p ts _ h
    simp only [collectTicks] at h ⊢
    exact h
  | succ count ih =>
    intro fuel fuel2 p ts hle h
    simp only [collectTicks] at h ⊢
    cases hft : findTick clk (clk p) fuel (p + 1) with
    | none => rw [hft] at h; simp at h
    | some j =>
      rw [hft] at h
      rw [findTick_mono clk (clk p) fuel fuel2 (p + 1) j hle hft]
      simp only [Option.some_bind] at h ⊢
      cases hct : collectTicks clk fuel (j + 1) count with
      | none => rw [hct] at h; simp at h
      | some ts2 =>
        rw [hct] at h
        rw [ih fuel fuel2 (j + 1) ts2 hle hct]
        exact h

lemma collectTicks_sound (clk : ℕ → ℚ) :
    ∀ count fuel p ts, collectTicks clk fuel p count = some ts →
      ts.length = count ∧ TicksFrom clk p ts := by
  intro count
  induction count with
  | zero =>
    intro fuel p ts h
    simp only [collectTicks, Option.some.injEq] at h
    rw [← h]
    exact ⟨rfl, TicksFrom.nil p⟩
  | succ count ih =>
    intro fuel p ts h
    simp only [collectTicks] at h
    cases hft : findTick clk (clk p) fuel (p + 1) with
    | none => rw [hft] at h; simp at h
    | some j =>
      rw [hft] at h
      simp only [Option.some_bind] at h
      cases hct : collectTicks clk fuel (j + 1) count with
      | none => rw [hct] at h; simp at h
      | some ts2 =>
        rw [hct] at h
        simp only [Option.map_some', Option.some.injEq] at h
        obtain ⟨hlen, htf⟩ := ih fuel (j + 1) ts2 hct
        obtain ⟨hj1, hj2, hj3⟩ := findTick_sound clk (clk p) fuel (p + 1) j hft
        rw [← h]
        refine ⟨by simp [hlen], ?_⟩
        exact TicksFrom.cons p j ts2 (by omega) hj2
          (fun i hpi hij => hj3 i (by omega) hij) htf

lemma collectTicks_succeeds (clk : ℕ → ℚ) (hmono : Monotone clk)
    (hunb : ∀ q : ℚ, ∃ n, q < clk n) :
    ∀ count p, ∃ fuel ts, collectTicks clk fuel p count = some ts := by
  intro count
  induction count with
  | zero => intro p; exact ⟨0, [], rfl⟩
  | succ count ih =>
    intro p
    obtain ⟨n, hn⟩ := hunb (clk p + 1 / 1000000)
    have hN1 : p + 1 ≤ max n (p + 1) := le_max_right _ _
    have hNc : 1 / 1000000 ≤ clk (max n (p + 1)) - clk p := by
      have hm := hmono (le_max_left n (p + 1))
      linarith
    obtain ⟨r, hr⟩ := findTick_succeeds clk (clk p) (max n (p + 1) - p) (p + 1)
      ⟨max n (p + 1), hN1, by omega, hNc⟩
    obtain ⟨fuel2, ts2, hts2⟩ := ih (r + 1)
    refine ⟨max (max n (p + 1) - p) fuel2, clk r :: ts2, ?_⟩
    simp only [collectTicks]
    rw [findTick_mono clk (clk p) _ _ (p + 1) r (le_max_left _ _) hr]
    simp only [Option.some_bind]
    rw [collectTicks_mono clk count fuel2 _ (r + 1) ts2 (le_max_right _ _) hts2]
    rfl

lemma deltas_length (ts : List ℚ) : (deltas ts).length = ts.length - 1 := by
  induction ts with
  | nil => rfl
  | cons t rest ih =>
    cases rest with
    | nil => rfl
    | cons t2 rest2 =>
      simp only [deltas, List.length_cons] at ih ⊢
      omega

/-! ## checktick evaluated on the concrete 2-seconds-per-sample clock -/

lemma findTick_ce (fuel p : ℕ) :
    findTick ceClk (ceClk p) (fuel + 1) (p + 1) = some (p + 1) := by
  simp only [findTick]
  rw [if_neg]
  simp only [ceClk]
  push_cast
  intro hcon
  norm_num at hcon
  linarith

lemma collect_ce : ∀ count p, collectTicks ceClk 50 p count = some (ceList p count) := by
  intro count
  induction count with
  | zero => intro p; rfl
  | succ count ih =>
    intro p
    simp only [collectTicks]
    have h50 : (50 : ℕ) = 49 + 1 := rfl
    rw [h50, findTick_ce 49 p]
    simp only [Option.some_bind]
    rw [ih (p + 2)]
    simp only [Option.map_some']
    rfl

lemma ceList_eval : ceList 0 20 = ceTicks := by
  norm_num [ceList, ceClk, ceTicks]

lemma deltas_ce : deltas ceTicks = List.replicate 19 4000000 := by
  norm_num [deltas, cIntCast, ceTicks, List.replicate]

lemma result_ce : checktickResult ceTicks = 1000000 := by
  rw [checktickResult, deltas_ce]
  decide

/-- C8 (counterexample).  On a monotone, strictly increasing clock that
advances 2 seconds per sample, `checktick` collects the 20 tick timestamps
`2, 6, 10, ..., 78`; all 19 successive differences convert and clamp to
4000000 microseconds, whose minimum is 4000000 - yet the function returns
1000000, because the reduction loop seeds `minDelta` with 1000000 (line 361)
and that initial value caps the result.  The claimed return value (the
minimum over the 19 clamped differences) is therefore wrong for this
input. -/
theorem C8_counterexample :
    checktickRun ceClk 50 = some 1000000 ∧
    collectTicks ceClk 50 0 20 = some ceTicks ∧
    (deltas ceTicks).map (fun d => max d 0) = List.replicate 19 4000000 ∧
    ((deltas ceTicks).map (fun d => max d 0)).min? = some 4000000 ∧
    (1000000 : ℤ) ≠ 4000000 := by
  have hcoll : collectTicks ceClk 50 0 20 = some ceTicks := by
    rw [collect_ce 20 0, ceList_eval]
  refine ⟨?_, hcoll, ?_, ?_, by norm_num⟩
  · rw [checktickRun, hcoll, Option.map_some', result_ce]
  · rw [deltas_ce]
    decide
  · rw [deltas_ce]
    decide

/-- C8 (amended).  Whenever the sampled clock is monotone and unbounded
(strict increase alone does not force the inner `while` loops of lines
350-352 to exit; the clock must eventually advance by a microsecond), there
is enough fuel for `checktick` to terminate, and then it collects exactly
`M = 20` tick timestamps - each the first sample at least one microsecond
after its iteration's fresh start sample (`TicksFrom`) - and returns the
minimum of the initial `minDelta = 1000000` and the 19 successive
differences, each converted to microseconds and clamped to a zero floor via
`MAX(Delta,0)` before the minimum is taken: the result is at most 1000000,
is a lower bound of the clamped differences, and is either 1000000 or one of
them. -/
theorem C8_checktick (clk : ℕ → ℚ) (hmono : Monotone clk)
    (hunb : ∀ q : ℚ, ∃ n, q < clk n) :
    ∃ fuel ts,
      collectTicks clk fuel 0 20 = some ts ∧
      ts.length = 20 ∧
      TicksFrom clk 0 ts ∧
      checktickRun clk fuel = some (checktickResult ts) ∧
      (deltas ts).length = 19 ∧
      checktickResult ts ≤ 1000000 ∧
      (∀ d ∈ (deltas ts).map (fun d => max d 0), checktickResult ts ≤ d) ∧
      (checktickResult ts = 1000000 ∨
        checktickResult ts ∈ (deltas ts).map (fun d => max d 0)) := by
  obtain ⟨fuel, ts, hts⟩ := collectTicks_succeeds clk hmono hunb 20 0
  obtain ⟨hlen, htf⟩ := collectTicks_sound clk 20 fuel 0 ts hts
  have hfold : checktickResult ts =
      ((deltas ts).map (fun d => max d 0)).foldl min 1000000 := by
    rw [checktickResult, List.foldl_map]
  refine ⟨fuel, ts, hts, hlen, htf, ?_, ?_, ?_, ?_, ?_⟩
  · rw [checktickRun, hts, Option.map_some']
  · rw [deltas_length, hlen]
  · rw [hfold]
    exact foldl_min_le_init _ _
  · intro d hd
    rw [hfold]
    exact foldl_min_le_mem hd _
  · rw [hfold]
    exact foldl_min_mem _ _

/-- C8 (witness): the amended theorem instantiated on the identity clock,
which is monotone and unbounded. -/
theorem C8_checktick_witness :
    (Monotone (fun n : ℕ => (n : ℚ)) ∧ (∀ q : ℚ, ∃ n : ℕ, q < (n : ℚ))) ∧
    (∃ fuel ts,
      collectTicks (fun n : ℕ => (n : ℚ)) fuel 0 20 = some ts ∧
      ts.length = 20 ∧
      TicksFrom (fun n : ℕ => (n : ℚ)) 0 ts ∧
      checktickRun (fun n : ℕ => (n : ℚ)) fuel = some (checktickResult ts) ∧
      (deltas ts).length = 19 ∧
      checktickResult ts ≤ 1000000 ∧
      (∀ d ∈ (deltas ts).map (fun d => max d 0), checktickResult ts ≤ d) ∧
      (checktickResult ts = 1000000 ∨
        checktickResult ts ∈ (deltas ts).map (fun d => max d 0))) := by
  have hmono : Monotone (fun n : ℕ => (n : ℚ)) := fun a b hab => by
    show (a : ℚ) ≤ (b : ℚ)
    exact_mod_cast hab
  have hunb : ∀ q : ℚ, ∃ n : ℕ, q < (n : ℚ) := fun q => exists_nat_gt q
  exact ⟨⟨hmono, hunb⟩, C8_checktick (fun n : ℕ => (n : ℚ)) hmono hunb⟩

end StreamBench
